import Mathlib

/-!
Verification development for the solc-typed-ast core: a shallow embedding of
the typed Solidity AST (node catalog restricted to the kinds the checked
properties exercise), the AST context (arena), the structural sanity checker
(`checkSane` / `isSane` from the sanity module), the compile-output gate
(`consistentlyContainsOneOf` / `detectCompileErrors` / `compileJsonData` from
src/compile/utils.ts) and the `ContractDefinition` accessors
(src/ast/implementation/declaration/contract_definition.ts).

Modelling conventions:
- Object identity is modelled as value identity; a node's `parent` pointer and
  every cross-reference is an id (`Nat`), as the spec mandates for reference
  attributes.  Within a single context the arena makes ids unique, so the two
  notions coincide on all states the library produces.
- JS exceptions are modelled with `Except`; the sanity module distinguishes
  `InsaneASTError` from a plain `Error`, which the model keeps as the two
  constructors of `SanityErr`.
- The node catalog is restricted to SourceUnit, PragmaDirective,
  StructuredDocumentation, ContractDefinition, EnumDefinition and EnumValue;
  the dispatch arms of `checkSane` for these kinds are translated verbatim,
  the remaining named-relation getters of the kinds that cannot occur in this
  catalog are constantly empty.
-/

namespace SolcTypedAst

/-- Value payload of one AST node, per node kind. `contractDefinition` keeps
the numeric reference attributes (`scope`, `linearizedBaseContracts`,
`usedErrors`) and the private `docString` exactly as the class does;
`sourceUnit` keeps the name-to-id `exportedSymbols` map as an association
list. -/
inductive NodePayload where
  | sourceUnit (exportedSymbols : List (String × Nat))
  | pragmaDirective (literals : List String)
  | structuredDocumentation (text : String)
  | contractDefinition (name : String) (scope : Nat)
      (linearizedBaseContracts : List Nat) (usedErrors : List Nat)
      (docString : Option String)
  | enumDefinition (name : String)
  | enumValue (name : String)
deriving DecidableEq, Repr

/-- One AST node: universal attributes `id` and `parent` (a weak back
reference, kept as the parent id), the kind-specific payload, and the ordered
structural children. -/
inductive Node where
  | mk (id : Nat) (parent : Option Nat) (payload : NodePayload) (kids : List Node)
deriving Repr

mutual

def nodeDecEq : (a b : Node) → Decidable (a = b)
  | .mk i1 p1 pl1 ks1, .mk i2 p2 pl2 ks2 =>
    match decEq i1 i2, decEq p1 p2, decEq pl1 pl2, nodeListDecEq ks1 ks2 with
    | isTrue h1, isTrue h2, isTrue h3, isTrue h4 => isTrue (by rw [h1, h2, h3, h4])
    | isFalse h1, _, _, _ => isFalse (by simp only [Node.mk.injEq]; tauto)
    | _, isFalse h2, _, _ => isFalse (by simp only [Node.mk.injEq]; tauto)
    | _, _, isFalse h3, _ => isFalse (by simp only [Node.mk.injEq]; tauto)
    | _, _, _, isFalse h4 => isFalse (by simp only [Node.mk.injEq]; tauto)

def nodeListDecEq : (as bs : List Node) → Decidable (as = bs)
  | [], [] => isTrue rfl
  | _ :: _, [] => isFalse (by intro h; exact List.noConfusion h)
  | [], _ :: _ => isFalse (by intro h; exact List.noConfusion h)
  | a :: as, b :: bs =>
    match nodeDecEq a b, nodeListDecEq as bs with
    | isTrue h1, isTrue h2 => isTrue (by rw [h1, h2])
    | isFalse h1, _ => isFalse (by simp only [List.cons.injEq]; tauto)
    | _, isFalse h2 => isFalse (by simp only [List.cons.injEq]; tauto)

end

instance : DecidableEq Node := nodeDecEq

/-- The node id (`ASTNode.id`). -/
def Node.id : Node → Nat
  | .mk i _ _ _ => i

/-- The parent back reference (`ASTNode.parent`), kept as the parent id. -/
def Node.parent : Node → Option Nat
  | .mk _ p _ _ => p

/-- The kind-specific payload. -/
def Node.payload : Node → NodePayload
  | .mk _ _ pl _ => pl

/-- The ordered direct structural children (`ASTNode.children`). -/
def Node.children : Node → List Node
  | .mk _ _ _ ks => ks

mutual

/-- `ASTNode.getChildren(true)`: the node itself followed by all its
descendants, in pre-order. -/
def Node.getChildren : Node → List Node
  | .mk i p pl ks => .mk i p pl ks :: getChildrenList ks

/-- Pre-order traversal of a list of sibling subtrees. -/
def getChildrenList : List Node → List Node
  | [] => []
  | k :: ks => k.getChildren ++ getChildrenList ks

end

/-- `ASTContext`: the arena mapping ids to nodes, kept as an association
list (first binding wins, as in the Map the class wraps). -/
abbrev ASTContext : Type := List (Nat × Node)

/-- `ASTContext.locate(id)`: the node registered under `id`, if any. -/
def locate (ctx : ASTContext) (i : Nat) : Option Node :=
  List.lookup i ctx

/-- `ASTContext.contains(node)`: `locate(node.id) === node`. -/
def ASTContext.contains (ctx : ASTContext) (n : Node) : Bool :=
  decide (locate ctx n.id = some n)

/-- The two exception species thrown by the sanity module: `insane` models
`InsaneASTError`, `fatal` models a plain `Error`. -/
inductive SanityErr where
  | insane (msg : String)
  | fatal (msg : String)
deriving DecidableEq, Repr

/-- Decidable equality for `Except` results, so concrete runs of the checkers
can be settled by `decide`. -/
def exceptDecEq {ε α : Type} [DecidableEq ε] [DecidableEq α] :
    (a b : Except ε α) → Decidable (a = b)
  | .ok x, .ok y =>
    match decEq x y with
    | isTrue h => isTrue (by rw [h])
    | isFalse h => isFalse (by intro hh; injection hh; contradiction)
  | .ok _, .error _ => isFalse (fun h => Except.noConfusion h)
  | .error _, .ok _ => isFalse (fun h => Except.noConfusion h)
  | .error e1, .error e2 =>
    match decEq e1 e2 with
    | isTrue h => isTrue (by rw [h])
    | isFalse h => isFalse (by intro hh; injection hh; contradiction)

instance {ε α : Type} [DecidableEq ε] [DecidableEq α] : DecidableEq (Except ε α) :=
  exceptDecEq

/-- Run an exception-throwing check on every element of a list in order,
stopping at the first raised error (the semantics of the `for` loops of the
sanity module). -/
def forEachE {α ε : Type} (l : List α) (f : α → Except ε Unit) : Except ε Unit :=
  match l with
  | [] => .ok ()
  | a :: as =>
    match f a with
    | .ok () => forEachE as f
    | .error e => .error e

/-- `checkFieldAndVFieldMatch`, scalar form: the numeric field is a number,
so the view must be an `ASTNode` (a plain `Error` otherwise) whose id equals
the field (an `InsaneASTError` otherwise). -/
def checkFieldVFieldScalar (f : Nat) (vf : Option Node) : Except SanityErr Unit :=
  match vf with
  | none => .error (.fatal "expected vField to be an ASTNode when field is a number")
  | some m =>
    if f = m.id then .ok ()
    else .error (.insane "field differs from vField id")

/-- The index loop of the list form of `checkFieldAndVFieldMatch`: every view
element must be an `ASTNode` (a plain `Error` otherwise) and ids must agree
index-wise (an `InsaneASTError` otherwise). -/
def checkFVPairs : List Nat → List (Option Node) → Except SanityErr Unit
  | [], _ => .ok ()
  | _ :: _, [] => .ok ()
  | _ :: _, none :: _ => .error (.fatal "expected vField element to be an ASTNode")
  | a :: as, some m :: vfs =>
    if a = m.id then checkFVPairs as vfs
    else .error (.insane "field element differs from vField element id")

/-- `checkFieldAndVFieldMatch`, list form: lengths must agree (an
`InsaneASTError` otherwise), then the index loop. -/
def checkFieldVFieldList (f : List Nat) (vf : List (Option Node)) : Except SanityErr Unit :=
  if f.length = vf.length then checkFVPairs f vf
  else .error (.insane "array properties have different lengths")

/-- `checkVFieldCtx` on a scalar view property: the value must be an
`ASTNode` and must live in the expected context (a plain `Error` in both
failure cases). -/
def checkVFieldCtxNode (ctx : ASTContext) (vf : Option Node) : Except SanityErr Unit :=
  match vf with
  | none => .error (.fatal "expected property to be an ASTNode")
  | some m =>
    if ctx.contains m then .ok ()
    else .error (.fatal "property not in expected context")

/-- `checkVFieldCtx` on an array view property: every element must be an
`ASTNode` living in the expected context. -/
def checkVFieldCtxNodes (ctx : ASTContext) (vf : List (Option Node)) : Except SanityErr Unit :=
  forEachE vf fun el =>
    match el with
    | none => .error (.fatal "expected array element to be an ASTNode")
    | some m =>
      if ctx.contains m then .ok ()
      else .error (.fatal "array element not in expected context")

/-- The shapes a named-relation field can take when handed to
`checkDirectChildren`: absent, a single node, an array of nodes possibly
containing nulls, or (after the legacy documentation quirk) a plain string. -/
inductive FieldVal where
  | undef
  | node (n : Node)
  | nodes (ns : List (Option Node))
  | strVal (s : String)
deriving DecidableEq, Repr

/-- One step of `checkDirectChildren`: require a node claimed by a field to
be a direct child and record it in the computed-children set (kept as a
duplicate-free list). -/
def cdcAdd (direct acc : List Node) (n : Node) : Except SanityErr (List Node) :=
  if direct.contains n then
    .ok (if acc.contains n then acc else acc ++ [n])
  else .error (.insane "field of node is not a direct child")

/-- `checkDirectChildren`, handling of one field: skip `undefined`, check a
node field, walk an array field skipping nulls, and throw a plain `Error` on
any other shape (the branch a string documentation value reaches). -/
def cdcField (direct : List Node) (acc : List Node) : FieldVal → Except SanityErr (List Node)
  | .undef => .ok acc
  | .node n => cdcAdd direct acc n
  | .nodes ns =>
    ns.foldlM
      (fun a el =>
        match el with
        | none => .ok a
        | some n => cdcAdd direct a n)
      acc
  | .strVal _ =>
    .error (.fatal "field is neither an ASTNode nor an array of ASTNode or nulls")

/-- Fold of `cdcField` over all fields of a node. -/
def cdcFields (direct : List Node) (acc : List Node) : List FieldVal → Except SanityErr (List Node)
  | [] => .ok acc
  | fv :: fvs =>
    match cdcField direct acc fv with
    | .ok acc2 => cdcFields direct acc2 fvs
    | .error e => .error e

/-- `checkDirectChildren(node, ...fields)`: every node mentioned by a field
must be a direct child, and the fields together must cover all direct
children (set-size comparison, an `InsaneASTError` when a child is missed). -/
def checkDirectChildren (direct : List Node) (fields : List FieldVal) : Except SanityErr Unit :=
  match cdcFields direct [] fields with
  | .error e => .error e
  | .ok computed =>
    if computed.length < direct.dedup.length then
      .error (.insane "fields do not completely cover the direct children")
    else .ok ()

/-- Kind test used by `instanceof PragmaDirective`. -/
def Node.isPragmaDirective (n : Node) : Bool :=
  match n.payload with
  | .pragmaDirective _ => true
  | _ => false

/-- Kind test used by `instanceof StructuredDocumentation`. -/
def Node.isStructuredDoc (n : Node) : Bool :=
  match n.payload with
  | .structuredDocumentation _ => true
  | _ => false

/-- Kind test used by `instanceof ContractDefinition`. -/
def Node.isContract (n : Node) : Bool :=
  match n.payload with
  | .contractDefinition _ _ _ _ _ => true
  | _ => false

/-- Kind test used by `instanceof EnumDefinition`. -/
def Node.isEnumDef (n : Node) : Bool :=
  match n.payload with
  | .enumDefinition _ => true
  | _ => false

/-- Kind test used by `instanceof EnumValue`. -/
def Node.isEnumValue (n : Node) : Bool :=
  match n.payload with
  | .enumValue _ => true
  | _ => false

/-- `SourceUnit.vPragmaDirectives`: the direct children that are pragma
directives. -/
def Node.vPragmaDirectives (n : Node) : List Node :=
  n.children.filter Node.isPragmaDirective

/-- `SourceUnit.vContracts`: the direct children that are contract
definitions. -/
def Node.vContracts (n : Node) : List Node :=
  n.children.filter Node.isContract

/-- `SourceUnit.vEnums` / `ContractDefinition.vEnums`: the direct children
that are enum definitions. -/
def Node.vEnums (n : Node) : List Node :=
  n.children.filter Node.isEnumDef

/-- `EnumDefinition.vMembers`: the direct children that are enum values. -/
def Node.vMembers (n : Node) : List Node :=
  n.children.filter Node.isEnumValue

/-- The value of a `documentation` getter: absent, a plain string (the
private `docString`), or a `StructuredDocumentation` child. -/
inductive DocVal where
  | noneDoc
  | text (s : String)
  | structured (n : Node)
deriving DecidableEq, Repr

/-- `ContractDefinition.documentation` getter: the stored `docString` when
set, otherwise the first `StructuredDocumentation` among the own children. -/
def Node.documentation (n : Node) : DocVal :=
  match n.payload with
  | .contractDefinition _ _ _ _ (some s) => .text s
  | .contractDefinition _ _ _ _ none =>
    match n.children.find? Node.isStructuredDoc with
    | some d => .structured d
    | none => .noneDoc
  | _ => .noneDoc

/-- The `documentation` value as the field handed to `checkDirectChildren`
for a `ContractDefinition` (this is where a textual legacy documentation
string flows into the direct-children check). -/
def docFieldVal (n : Node) : FieldVal :=
  match n.documentation with
  | .noneDoc => .undef
  | .text s => .strVal s
  | .structured d => .node d

/-- `SourceUnit.vExportedSymbols.get(name)`: the map is rebuilt from the
`exportedSymbols` entries (later bindings overwrite earlier ones) with each
id resolved through the context. -/
def vExportedSymbolsGet (ctx : ASTContext) (syms : List (String × Nat)) (name : String) :
    Option Node :=
  match List.lookup name syms.reverse with
  | some i => locate ctx i
  | none => none

/-- `ContractDefinition.scope`. -/
def Node.scopeOf (n : Node) : Option Nat :=
  match n.payload with
  | .contractDefinition _ sc _ _ _ => some sc
  | _ => none

/-- `ContractDefinition.linearizedBaseContracts`. -/
def Node.linearizedOf (n : Node) : List Nat :=
  match n.payload with
  | .contractDefinition _ _ lin _ _ => lin
  | _ => []

/-- `ContractDefinition.usedErrors`. -/
def Node.usedErrorsOf (n : Node) : List Nat :=
  match n.payload with
  | .contractDefinition _ _ _ used _ => used
  | _ => []

/-- Sequencing of two exception-throwing checks: run the second only when
the first did not throw. -/
def andThenE {ε : Type} (a b : Except ε Unit) : Except ε Unit :=
  match a with
  | .ok () => b
  | .error e => .error e

/-- Context-membership check of one reachable node (the first check of the
`checkSane` loop body). -/
def checkMembership (ctx : ASTContext) (n : Node) : Except SanityErr Unit :=
  if ¬ ctx.contains n then .error (.insane "child in different context")
  else .ok ()

/-- Parent back-pointer check over the immediate children of one node (the
second check of the `checkSane` loop body). -/
def checkParents (n : Node) : Except SanityErr Unit :=
  forEachE n.children fun c =>
    if c.parent = some n.id then .ok ()
    else .error (.insane "child has wrong parent")

/-- The field list handed to `checkDirectChildren` in the
`ContractDefinition` branch of `checkSane`.  It unconditionally starts with
the `documentation` value, followed by the named child relations (those of
node kinds outside the modelled catalog are constantly empty) and the
optional `vConstructor`. -/
def contractFields (n : Node) : List FieldVal :=
  [ docFieldVal n,
    .nodes [],
    .nodes [],
    .nodes [],
    .nodes [],
    .nodes [],
    .nodes [],
    .nodes [],
    .nodes [],
    .nodes (n.vEnums.map some),
    .nodes [],
    .undef ]

/-- Kind dispatch of the `checkSane` loop body: leaf kinds are accepted
outright; `SourceUnit`, `ContractDefinition` and `EnumDefinition` get the
checks of the corresponding branches of the sanity module. -/
def checkKind (ctx : ASTContext) (n : Node) : Except SanityErr Unit :=
  match n.payload with
  | .pragmaDirective _ => .ok ()
  | .structuredDocumentation _ => .ok ()
  | .enumValue _ => .ok ()
  | .sourceUnit syms =>
    andThenE
      (forEachE syms fun entry =>
        match locate ctx entry.2 with
        | none => .error (.insane "exported symbol missing from context")
        | some symNode =>
          if vExportedSymbolsGet ctx syms entry.1 = some symNode then .ok ()
          else .error (.insane "exported symbol does not match vExportedSymbols entry"))
      (checkDirectChildren n.children
        [ .nodes (n.vPragmaDirectives.map some),
          .nodes [],
          .nodes (n.vContracts.map some),
          .nodes (n.vEnums.map some),
          .nodes [],
          .nodes [],
          .nodes [],
          .nodes [],
          .nodes [] ])
  | .contractDefinition _ sc lin used _ =>
    andThenE (checkFieldVFieldScalar sc (locate ctx sc))
      (andThenE (checkVFieldCtxNode ctx (locate ctx sc))
        (andThenE
          (if n.parent = some sc then .ok ()
           else .error (.insane "contract vScope and parent differ"))
          (andThenE (checkFieldVFieldList lin (lin.map (locate ctx)))
            (andThenE (checkVFieldCtxNodes ctx (lin.map (locate ctx)))
              (andThenE (checkFieldVFieldList used (used.map (locate ctx)))
                (andThenE (checkVFieldCtxNodes ctx (used.map (locate ctx)))
                  (match n.documentation with
                   | .structured d =>
                     andThenE (checkVFieldCtxNode ctx (some d))
                       (checkDirectChildren n.children (contractFields n ++ [docFieldVal n]))
                   | _ => checkDirectChildren n.children (contractFields n))))))))
  | .enumDefinition _ =>
    andThenE
      (match n.parent with
       | none => .error (.fatal "expected property vScope to be an ASTNode")
       | some pid =>
         match locate ctx pid with
         | some _ => .ok ()
         | none => .error (.fatal "property vScope not in expected context"))
      (checkDirectChildren n.children [.nodes (n.vMembers.map some)])

/-- One iteration of the `checkSane` loop over the reachable nodes: the
context-membership check, the parent back-pointer check over the immediate
children, then the kind dispatch. -/
def checkNodeSanity (ctx : ASTContext) (n : Node) : Except SanityErr Unit :=
  andThenE (checkMembership ctx n) (andThenE (checkParents n) (checkKind ctx n))

/-- `checkSane(unit, ctx)`: walk all reachable nodes of the source unit in
pre-order and run the per-node sanity checks on each, raising on the first
violation. -/
def checkSane (unit : Node) (ctx : ASTContext) : Except SanityErr Unit :=
  forEachE unit.getChildren (checkNodeSanity ctx)

/-- `isSane(unit, ctx)`: the boolean wrapper around `checkSane` that
swallows `InsaneASTError` (returning `false`) and re-raises everything
else. -/
def isSane (unit : Node) (ctx : ASTContext) : Except SanityErr Bool :=
  match checkSane unit ctx with
  | .ok () => .ok true
  | .error (.insane _) => .ok false
  | .error (.fatal m) => .error (.fatal m)

/-- A contract node as the legacy (< 0.6.3) reader materialises it: the
documentation is a plain textual string stored in `docString`. -/
def legacyContract : Node :=
  .mk 2 (some 1) (.contractDefinition "C" 1 [2] [] (some "legacy doc")) []

/-- A freshly read legacy source unit holding `legacyContract`. -/
def legacyUnit : Node :=
  .mk 1 none (.sourceUnit [("C", 2)]) [legacyContract]

/-- The context of `legacyUnit`. -/
def legacyCtx : ASTContext :=
  [(1, legacyUnit), (2, legacyContract)]

/-- The same contract with its documentation absent. -/
def saneContract : Node :=
  .mk 2 (some 1) (.contractDefinition "C" 1 [2] [] none) []

/-- A sane source unit holding `saneContract`. -/
def saneUnit : Node :=
  .mk 1 none (.sourceUnit [("C", 2)]) [saneContract]

/-- The context of `saneUnit`. -/
def saneCtx : ASTContext :=
  [(1, saneUnit), (2, saneContract)]

/-- A source unit whose only child carries a wrong parent back-pointer. -/
def badParentUnit : Node :=
  .mk 1 none (.sourceUnit []) [.mk 2 (some 99) (.pragmaDirective ["solidity"]) []]

/-- The context of `badParentUnit`. -/
def badParentCtx : ASTContext :=
  [(1, badParentUnit), (2, .mk 2 (some 99) (.pragmaDirective ["solidity"]) [])]

/-- One section of the compiler-output `sources` map, abstracted to the set
of property names present on it (all that `consistentlyContainsOneOf` and
the branch selection of `compileJsonData` inspect). -/
abbrev SectionProps : Type := List String

/-- The `sources` map of compiler-output JSON: file name to section. -/
abbrev SourcesMap : Type := List (String × SectionProps)

/-- `consistentlyContainsOneOf(sources, ...properties)`: true when some
single one of the given properties is present in every section of the
sources map. -/
def consistentlyContainsOneOf (sources : SourcesMap) (properties : List String) : Bool :=
  properties.any fun property =>
    (sources.map (·.2)).all fun sec => sec.contains property

/-- One entry of the top-level `errors` array of compiler output: a modern
object entry (with `severity` and `formattedMessage`), a legacy string
entry, or a value of any other type (skipped by the detector). -/
inductive SolcErrorEntry where
  | obj (severity : String) (formattedMessage : String)
  | strEntry (s : String)
  | otherEntry
deriving DecidableEq, Repr

/-- Substring containment over character lists. -/
def hasSubstring (needle : List Char) : List Char → Bool
  | [] => needle.isEmpty
  | c :: cs => needle.isPrefixOf (c :: cs) || hasSubstring needle cs

/-- `error.match("Warning")` truthiness for a legacy string entry: the
regular expression is the literal `Warning`, so this is substring
containment. -/
def matchesWarning (s : String) : Bool :=
  hasSubstring "Warning".data s.data

/-- Compiler-output JSON as far as `compileJsonData` inspects it: an
optional `sources` object and an optional top-level `errors` array. -/
structure JsonData where
  sources : Option SourcesMap
  errors : Option (List SolcErrorEntry)
deriving DecidableEq, Repr

/-- One iteration of the `detectCompileErrors` loop: push the
`formattedMessage` of an object entry with severity `error`, push a string
entry that does not match `Warning`, skip everything else. -/
def detectStep (acc : List String) (e : SolcErrorEntry) : List String :=
  match e with
  | .obj sev msg => if sev = "error" then acc ++ [msg] else acc
  | .strEntry s => if matchesWarning s then acc else acc ++ [s]
  | .otherEntry => acc

/-- `detectCompileErrors(data)`: walk `data.errors` when it is an array and
collect the `formattedMessage` of every object entry with severity `error`
and every string entry that does not match `Warning`. -/
def detectCompileErrors : JsonData → List String
  | ⟨_, none⟩ => []
  | ⟨_, some errs⟩ => errs.foldl detectStep []

/-- Failures of `compileJsonData`: `compileFailed` models
`CompileFailedError` carrying the detected error list, `malformed` models
the plain `Error` thrown on unusable input. -/
inductive CompileFailure where
  | compileFailed (errors : List String)
  | malformed (msg : String)
deriving DecidableEq, Repr

/-- The successful outcomes of `compileJsonData` relevant to the branch
decision: the AST-carrying data is returned as-is, or the raw sources are
handed to the compiler invocation (external to the core). -/
inductive CompileOutcome where
  | astResult
  | compileRequest
deriving DecidableEq, Repr

/-- The synchronous decision structure of `compileJsonData(fileName, data, ...)`:
require a `sources` object; when some one of `ast`/`legacyAST`/`AST` is
present in every section, fail with the detected compile errors if any and
otherwise deliver the data; when `source` is present in every section, hand
the sources to the compiler; otherwise reject the data structure. -/
def compileJsonData : JsonData → Except CompileFailure CompileOutcome
  | ⟨none, _⟩ => .error (.malformed "Unable to find required properties")
  | ⟨some sources, errs⟩ =>
    if consistentlyContainsOneOf sources ["ast", "legacyAST", "AST"] then
      match detectCompileErrors ⟨some sources, errs⟩ with
      | [] => .ok .astResult
      | e :: es => .error (.compileFailed (e :: es))
    else if consistentlyContainsOneOf sources ["source"] then .ok .compileRequest
    else
      .error
        (.malformed
          "Unable to process data structure: neither consistent AST or code values are present")

/-- Modelled from the spec: the `ASTNodeFactory` implementation is not under
src/, so the factory is modelled per spec section 4.2 as the context id
counter it draws fresh ids from. -/
structure ASTNodeFactory where
  nextId : Nat
deriving DecidableEq, Repr

/-- The ids of a subtree in pre-order (spec section 4.2, pass one of deep
copy). -/
def preorderIds (r : Node) : List Nat :=
  r.getChildren.map Node.id

/-- The `old_id → new_id` map of deep copy: the id at pre-order position `i`
of the copied subtree maps to `base + i`; ids outside the subtree are kept
verbatim (spec section 4.2, steps 1 and 3). -/
def remapId (base : Nat) : List Nat → Nat → Nat
  | [], o => o
  | a :: as, o => if o = a then base else remapId (base + 1) as o

/-- Apply the id map to the referential attributes of a payload; value
attributes are copied verbatim (spec section 4.2, steps 2 and 3). -/
def remapPayload (f : Nat → Nat) : NodePayload → NodePayload
  | .sourceUnit syms => .sourceUnit (syms.map fun e => (e.1, f e.2))
  | .contractDefinition nm sc lin used d =>
    .contractDefinition nm (f sc) (lin.map f) (used.map f) d
  | pl => pl

mutual

/-- Apply the id map to every node of a subtree: the node id, the parent
back reference and the referential attributes are mapped, the structural
shape and the value attributes are preserved. -/
def applyRemap (f : Nat → Nat) : Node → Node
  | .mk i p pl ks => .mk (f i) (p.map f) (remapPayload f pl) (applyRemapList f ks)

/-- `applyRemap` over a list of sibling subtrees. -/
def applyRemapList (f : Nat → Nat) : List Node → List Node
  | [] => []
  | k :: ks => applyRemap f k :: applyRemapList f ks

end

/-- Modelled from the spec: `ASTNodeFactory.copy(r)` (spec section 4.2)
recreates the subtree with fresh ids drawn from the factory counter,
remapping internal references and keeping external ones, and advances the
counter past the new ids. -/
def ASTNodeFactory.copy (fact : ASTNodeFactory) (r : Node) : Node × ASTNodeFactory :=
  (applyRemap (remapId fact.nextId (preorderIds r)) r,
   ⟨fact.nextId + (preorderIds r).length⟩)

/-- Render of the value attributes of one node kind; ids and referential
attributes do not appear in the render. -/
def payloadRender : NodePayload → String
  | .sourceUnit syms => "SourceUnit " ++ String.intercalate "," (syms.map (·.1))
  | .pragmaDirective lits => "PragmaDirective " ++ String.intercalate " " lits
  | .structuredDocumentation t => "StructuredDocumentation " ++ t
  | .contractDefinition nm _ _ _ d =>
    "ContractDefinition " ++ nm ++
      (match d with
       | some s => " " ++ s
       | none => "")
  | .enumDefinition nm => "EnumDefinition " ++ nm
  | .enumValue nm => "EnumValue " ++ nm

mutual

/-- Modelled from the spec: `print` (spec section 4.6), a plain textual
render of the subtree, nesting the children render inside the node
render. -/
def Node.print : Node → String
  | .mk _ _ pl ks => payloadRender pl ++ "(" ++ printForest ks ++ ")"

/-- `print` over a list of sibling subtrees. -/
def printForest : List Node → String
  | [] => ""
  | k :: ks => k.print ++ ";" ++ printForest ks

end

/-- The structural shape of a subtree: all ids (node ids, parent back
references and referential attributes) normalised away, keeping kinds,
value attributes and nesting. -/
def Node.shapeOf (n : Node) : Node :=
  applyRemap (fun _ => 0) n

/-- `ContractDefinition.vScope` setter: reject a value outside the current
context before mutating anything, otherwise store the id of the value in
the numeric `scope` field. -/
def setVScope (ctx : ASTContext) (c : Node) (value : Node) : Except SanityErr Node :=
  if ¬ ctx.contains value then
    .error (.fatal "node not belongs to a current context")
  else
    match c with
    | .mk i p (.contractDefinition nm _ lin used d) ks =>
      .ok (.mk i p (.contractDefinition nm value.id lin used d) ks)
    | _ => .error (.fatal "receiver is not a contract definition")

/-- Replace the node with one new parent back reference (the in-place
parent rebinding the structural mutations perform on the moved child). -/
def Node.withParent : Node → Option Nat → Node
  | .mk i _ pl ks, p => .mk i p pl ks

/-- Modelled from the spec (section 4.4; the ASTNodeWithChildren
implementation is not under src/): `replace_child(new, old)` replaces the
first occurrence of the old child in the own-children list. -/
def replaceChild (nw old : Node) : List Node → List Node
  | [] => []
  | k :: ks => if k = old then nw :: ks else k :: replaceChild nw old ks

/-- Modelled from the spec (section 4.4): `remove_child(c)` removes the
first occurrence of the child from the own-children list. -/
def removeChild (old : Node) : List Node → List Node
  | [] => []
  | k :: ks => if k = old then ks else k :: removeChild old ks

/-- The value assigned to the `documentation` setter: `undefined`, a plain
string, or a `StructuredDocumentation` node. -/
inductive DocAssign where
  | undefDoc
  | strDoc (s : String)
  | structuredDoc (d : Node)
deriving DecidableEq, Repr

/-- `ContractDefinition.documentation` setter: capture the old
documentation; a structured value clears `docString` and replaces the old
structured child when one existed and differs (no-op when it is the same
node), otherwise is inserted at the beginning of the children; a string or
`undefined` value removes the old structured child when one existed and is
stored in `docString`. The structural mutations rebind the parent pointer of
the inserted child to the contract. -/
def setDocumentation (c : Node) (v : DocAssign) : Node :=
  match c with
  | .mk i p (.contractDefinition nm sc lin used ds) ks =>
    let old := Node.documentation (.mk i p (.contractDefinition nm sc lin used ds) ks)
    match v with
    | .structuredDoc d =>
      match old with
      | .structured oldD =>
        if d ≠ oldD then
          .mk i p (.contractDefinition nm sc lin used none)
            (replaceChild (d.withParent (some i)) oldD ks)
        else .mk i p (.contractDefinition nm sc lin used none) ks
      | _ => .mk i p (.contractDefinition nm sc lin used none) (d.withParent (some i) :: ks)
    | .strDoc s =>
      match old with
      | .structured oldD =>
        .mk i p (.contractDefinition nm sc lin used (some s)) (removeChild oldD ks)
      | _ => .mk i p (.contractDefinition nm sc lin used (some s)) ks
    | .undefDoc =>
      match old with
      | .structured oldD =>
        .mk i p (.contractDefinition nm sc lin used none) (removeChild oldD ks)
      | _ => .mk i p (.contractDefinition nm sc lin used none) ks
  | other => other

/-- `ContractDefinition.vLinearizedBaseContracts`: the element-wise context
lookup of the `linearizedBaseContracts` ids. -/
def vLinearizedBaseContracts (ctx : ASTContext) (c : Node) : List (Option Node) :=
  c.linearizedOf.map (locate ctx)

/-- `ContractDefinition.isSubclassOf(other)`: membership of the other
contract in the context-resolved linearised base contracts. -/
def isSubclassOf (ctx : ASTContext) (c other : Node) : Bool :=
  (vLinearizedBaseContracts ctx c).contains (some other)

/-- The `StructuredDocumentation` nodes among the own children of a
contract. -/
def structuredKids (c : Node) : List Node :=
  c.children.filter Node.isStructuredDoc

/-- Documentation coherence of a contract state: at most one
`StructuredDocumentation` child, and none at all while a textual
`docString` is stored.  Every state the class itself produces satisfies
this. -/
def docCoherent (c : Node) : Bool :=
  decide ((structuredKids c).length ≤ 1) &&
    (match c.payload with
     | .contractDefinition _ _ _ _ (some _) => (structuredKids c).isEmpty
     | _ => true)

/-- The reference/view agreement property at one node, over the numeric
reference attributes the modelled catalog carries (`scope`,
`linearizedBaseContracts` and `usedErrors` of a `ContractDefinition`): the
scalar view resolves to a node whose id equals the field, and each list
view has the same length as the field with index-wise matching ids. -/
def refViewOkP (ctx : ASTContext) : NodePayload → Prop
  | .contractDefinition _ sc lin used _ =>
    ((locate ctx sc).map Node.id = some sc)
    ∧ ((lin.map (locate ctx)).length = lin.length
       ∧ (lin.map (locate ctx)).map (Option.map Node.id) = lin.map some)
    ∧ ((used.map (locate ctx)).length = used.length
       ∧ (used.map (locate ctx)).map (Option.map Node.id) = used.map some)
  | _ => True

instance (ctx : ASTContext) : (pl : NodePayload) → Decidable (refViewOkP ctx pl)
  | .sourceUnit _ => inferInstanceAs (Decidable True)
  | .pragmaDirective _ => inferInstanceAs (Decidable True)
  | .structuredDocumentation _ => inferInstanceAs (Decidable True)
  | .contractDefinition _ _ _ _ _ => inferInstanceAs (Decidable (_ ∧ _ ∧ _))
  | .enumDefinition _ => inferInstanceAs (Decidable True)
  | .enumValue _ => inferInstanceAs (Decidable True)

/-- Reference/view agreement of a node (see `refViewOkP`). -/
def refViewOk (ctx : ASTContext) (n : Node) : Prop :=
  refViewOkP ctx n.payload

instance (ctx : ASTContext) (n : Node) : Decidable (refViewOk ctx n) :=
  inferInstanceAs (Decidable (refViewOkP ctx n.payload))

/-- A structured documentation node, as stored among the children of
`twoDocContract`. -/
def sdOne : Node :=
  .mk 10 (some 1) (.structuredDocumentation "first doc") []

/-- A second structured documentation node of `twoDocContract`. -/
def sdTwo : Node :=
  .mk 11 (some 1) (.structuredDocumentation "second doc") []

/-- A contract state carrying two `StructuredDocumentation` children; such a
state is constructible through the generic child mutations. -/
def twoDocContract : Node :=
  .mk 1 none (.contractDefinition "C" 0 [] [] none) [sdOne, sdTwo]

/-- A mixed-schema sources map: one section carries only `ast`, the other
only `legacyAST`. -/
def mixedSources : SourcesMap :=
  [("a.sol", ["ast"]), ("b.sol", ["legacyAST"])]

/-- The selection the claim describes, stated from its words: an errors
array entry is detected exactly when it is an object with severity `error`
(rendered by its formatted message) or a string that does not match
`Warning` (rendered as itself). -/
def specSelectedError : SolcErrorEntry → Option String
  | .obj sev msg => if sev = "error" then some msg else none
  | .strEntry s => if matchesWarning s then none else some s
  | .otherEntry => none

/-- AST-carrying compiler output whose errors array mixes severities and
schemas. -/
def errorData : JsonData :=
  ⟨some [("a.sol", ["ast"])],
   some [.obj "error" "boom", .strEntry "Warning: x", .strEntry "legacy fail",
     .obj "warning" "meh"]⟩

theorem andThenE_ok_iff {ε : Type} (a b : Except ε Unit) :
    andThenE a b = .ok () ↔ a = .ok () ∧ b = .ok () := by
  cases a with
  | error e => simp [andThenE]
  | ok u => cases u; simp [andThenE]

theorem forEachE_ok_iff {α ε : Type} (l : List α) (f : α → Except ε Unit) :
    forEachE l f = .ok () ↔ ∀ a ∈ l, f a = .ok () := by
  induction l with
  | nil => simp [forEachE]
  | cons a as ih =>
    rw [forEachE]
    cases hfa : f a with
    | error e => simp [hfa]
    | ok u => cases u; simp [hfa, ih]

theorem checkSane_ok_iff (unit : Node) (ctx : ASTContext) :
    checkSane unit ctx = .ok () ↔ ∀ n ∈ unit.getChildren, checkNodeSanity ctx n = .ok () :=
  forEachE_ok_iff _ _

theorem checkNodeSanity_ok_iff (ctx : ASTContext) (n : Node) :
    checkNodeSanity ctx n = .ok () ↔
      checkMembership ctx n = .ok () ∧ checkParents n = .ok () ∧ checkKind ctx n = .ok () := by
  rw [checkNodeSanity, andThenE_ok_iff, andThenE_ok_iff]

theorem checkParents_ok_iff (n : Node) :
    checkParents n = .ok () ↔ ∀ c ∈ n.children, c.parent = some n.id := by
  rw [checkParents, forEachE_ok_iff]
  constructor
  · intro h c hc
    have := h c hc
    by_contra hne
    rw [if_neg hne] at this
    exact Except.noConfusion this
  · intro h c hc
    rw [if_pos (h c hc)]

theorem checkFieldVFieldScalar_ok (f : Nat) (vf : Option Node)
    (h : checkFieldVFieldScalar f vf = .ok ()) :
    vf.map Node.id = some f := by
  cases vf with
  | none => exact absurd h (by rw [checkFieldVFieldScalar]; exact fun hh => Except.noConfusion hh)
  | some m =>
    rw [checkFieldVFieldScalar] at h
    by_cases hid : f = m.id
    · simp [hid]
    · rw [if_neg hid] at h
      exact Except.noConfusion h

theorem checkFieldVFieldList_map_ok (ctx : ASTContext) (f : List Nat)
    (h : checkFieldVFieldList f (f.map (locate ctx)) = .ok ()) :
    (f.map (locate ctx)).map (Option.map Node.id) = f.map some := by
  rw [checkFieldVFieldList, if_pos (by rw [List.length_map])] at h
  induction f with
  | nil => simp
  | cons a as ih =>
    rw [List.map_cons] at h
    revert h
    cases hla : locate ctx a with
    | none => intro h; rw [checkFVPairs] at h; exact Except.noConfusion h
    | some m =>
      intro h
      rw [checkFVPairs] at h
      by_cases hid : a = m.id
      · rw [if_pos hid] at h
        rw [List.map_cons, List.map_cons, hla, List.map_cons]
        rw [ih h]
        simp [hid]
      · rw [if_neg hid] at h
        exact Except.noConfusion h

theorem checkKind_refView (ctx : ASTContext) (n : Node) (h : checkKind ctx n = .ok ()) :
    refViewOk ctx n := by
  rcases n with ⟨i, p, pl, ks⟩
  cases pl with
  | contractDefinition nm sc lin used d =>
    simp only [checkKind, Node.payload] at h
    rw [andThenE_ok_iff] at h
    obtain ⟨h1, h⟩ := h
    rw [andThenE_ok_iff] at h
    obtain ⟨-, h⟩ := h
    rw [andThenE_ok_iff] at h
    obtain ⟨-, h⟩ := h
    rw [andThenE_ok_iff] at h
    obtain ⟨h4, h⟩ := h
    rw [andThenE_ok_iff] at h
    obtain ⟨-, h⟩ := h
    rw [andThenE_ok_iff] at h
    obtain ⟨h6, -⟩ := h
    exact ⟨checkFieldVFieldScalar_ok _ _ h1,
      ⟨by rw [List.length_map], checkFieldVFieldList_map_ok ctx lin h4⟩,
      ⟨by rw [List.length_map], checkFieldVFieldList_map_ok ctx used h6⟩⟩
  | sourceUnit syms => trivial
  | pragmaDirective lits => trivial
  | structuredDocumentation t => trivial
  | enumDefinition nm => trivial
  | enumValue nm => trivial

theorem checkSane_not_ok_error (unit : Node) (ctx : ASTContext)
    (h : checkSane unit ctx ≠ .ok ()) : ∃ e, checkSane unit ctx = .error e := by
  cases hcs : checkSane unit ctx with
  | ok u => cases u; exact absurd hcs h
  | error e => exact ⟨e, rfl⟩

/-- Claim C1: the sanity checker is claimed to accept every freshly read
tree, including a legacy tree in which a ContractDefinition documentation is
a plain textual string.  The code instead lists `documentation`
unconditionally among the fields handed to `checkDirectChildren` for
contracts, so a textual documentation string reaches the field-shape check
and `checkSane` throws a plain `Error` there; the identically shaped
contract without the textual documentation is accepted. -/
theorem c1_legacy_documentation_crashes_checkSane :
    checkSane legacyUnit legacyCtx =
        .error (.fatal "field is neither an ASTNode nor an array of ASTNode or nulls")
      ∧ checkSane saneUnit saneCtx = .ok () := by
  constructor
  · decide
  · decide

/-- Claim C3: whenever `checkSane` accepts a source unit, every reachable
node satisfies reference/view agreement on its paired numeric/view
attributes (scalar views resolve to a node with the matching id, list views
have the same length and index-wise matching ids); and whenever some
reachable node violates agreement, `checkSane` raises an error. -/
theorem c3_checkSane_refview_agreement (unit : Node) (ctx : ASTContext) :
    (checkSane unit ctx = .ok () → ∀ n ∈ unit.getChildren, refViewOk ctx n)
    ∧ (∀ n ∈ unit.getChildren, ¬ refViewOk ctx n → ∃ e, checkSane unit ctx = .error e) := by
  constructor
  · intro h n hn
    have hone := (checkSane_ok_iff unit ctx).mp h n hn
    have hkind := ((checkNodeSanity_ok_iff ctx n).mp hone).2.2
    exact checkKind_refView ctx n hkind
  · intro n hn hbad
    apply checkSane_not_ok_error
    intro hok
    exact hbad (checkKind_refView ctx n (((checkNodeSanity_ok_iff ctx n).mp
      ((checkSane_ok_iff unit ctx).mp hok n hn)).2.2))

/-- Claim C3 witness: on a concretely sane unit, `checkSane` succeeds and
the contained contract enjoys reference/view agreement. -/
theorem c3_witness :
    checkSane saneUnit saneCtx = .ok () ∧ refViewOk saneCtx saneContract :=
  ⟨by decide,
   (c3_checkSane_refview_agreement saneUnit saneCtx).1 (by decide) saneContract (by decide)⟩

/-- Claim C4: whenever `checkSane` accepts a source unit, every reachable
node owns its direct structural children (each child parent back-pointer
equals the owner); and whenever some reachable node has a child with a
differing parent back-pointer, `checkSane` raises an error. -/
theorem c4_checkSane_parent_consistency (unit : Node) (ctx : ASTContext) :
    (checkSane unit ctx = .ok () →
      ∀ n ∈ unit.getChildren, ∀ c ∈ n.children, c.parent = some n.id)
    ∧ (∀ n ∈ unit.getChildren, (∃ c ∈ n.children, c.parent ≠ some n.id) →
        ∃ e, checkSane unit ctx = .error e) := by
  constructor
  · intro h n hn
    have hone := (checkSane_ok_iff unit ctx).mp h n hn
    exact (checkParents_ok_iff n).mp ((checkNodeSanity_ok_iff ctx n).mp hone).2.1
  · intro n hn hbad
    obtain ⟨c, hc, hcp⟩ := hbad
    apply checkSane_not_ok_error
    intro hok
    exact hcp ((checkParents_ok_iff n).mp (((checkNodeSanity_ok_iff ctx n).mp
      ((checkSane_ok_iff unit ctx).mp hok n hn)).2.1) c hc)

/-- Claim C4 witness: on a concretely sane unit, `checkSane` succeeds and
the contract child of the source unit points back at it. -/
theorem c4_witness : saneContract.parent = some saneUnit.id :=
  (c4_checkSane_parent_consistency saneUnit saneCtx).1 (by decide) saneUnit (by decide)
    saneContract (by decide)

/-- Claim C7: `isSane` returns `true` exactly when `checkSane` raises
nothing, returns `false` when `checkSane` raises an `InsaneASTError`, and
re-raises any other error of `checkSane` unchanged. -/
theorem isSane_of_ok {unit : Node} {ctx : ASTContext}
    (h : checkSane unit ctx = .ok ()) : isSane unit ctx = .ok true := by
  unfold isSane
  rw [h]

theorem isSane_of_insane {unit : Node} {ctx : ASTContext} {m : String}
    (h : checkSane unit ctx = .error (.insane m)) : isSane unit ctx = .ok false := by
  unfold isSane
  rw [h]

theorem isSane_of_fatal {unit : Node} {ctx : ASTContext} {m : String}
    (h : checkSane unit ctx = .error (.fatal m)) :
    isSane unit ctx = .error (.fatal m) := by
  unfold isSane
  rw [h]

/-- Claim C7: `isSane` returns `true` exactly when `checkSane` raises
nothing, returns `false` when `checkSane` raises an `InsaneASTError`, and
re-raises any other error of `checkSane` unchanged. -/
theorem c7_isSane_wrapper (unit : Node) (ctx : ASTContext) :
    (isSane unit ctx = .ok true ↔ checkSane unit ctx = .ok ())
    ∧ (∀ m, checkSane unit ctx = .error (.insane m) → isSane unit ctx = .ok false)
    ∧ (∀ m, checkSane unit ctx = .error (.fatal m) →
        isSane unit ctx = .error (.fatal m))
    ∧ (isSane unit ctx = .ok false → ∃ m, checkSane unit ctx = .error (.insane m)) := by
  refine ⟨⟨?_, isSane_of_ok⟩, fun m h => isSane_of_insane h, fun m h => isSane_of_fatal h, ?_⟩
  · intro h
    cases hcs : checkSane unit ctx with
    | ok u => cases u; rfl
    | error e =>
      cases e with
      | insane m => rw [isSane_of_insane hcs] at h; exact Bool.noConfusion (Except.ok.inj h)
      | fatal m => rw [isSane_of_fatal hcs] at h; exact Except.noConfusion h
  · intro h
    cases hcs : checkSane unit ctx with
    | ok u => cases u; rw [isSane_of_ok hcs] at h; exact Bool.noConfusion (Except.ok.inj h)
    | error e =>
      cases e with
      | insane m => exact ⟨m, rfl⟩
      | fatal m => rw [isSane_of_fatal hcs] at h; exact Except.noConfusion h

/-- Claim C7 witness: the boolean wrapper on three concrete runs, hitting
the success, insanity and re-raise branches of `checkSane`. -/
theorem c7_witness :
    isSane saneUnit saneCtx = .ok true
    ∧ isSane badParentUnit badParentCtx = .ok false
    ∧ isSane legacyUnit legacyCtx =
        .error (.fatal "field is neither an ASTNode nor an array of ASTNode or nulls") :=
  ⟨(c7_isSane_wrapper saneUnit saneCtx).1.mpr (by decide),
   (c7_isSane_wrapper badParentUnit badParentCtx).2.1 "child has wrong parent" (by decide),
   (c7_isSane_wrapper legacyUnit legacyCtx).2.2.1
     "field is neither an ASTNode nor an array of ASTNode or nulls" (by decide)⟩

/-- Claim C2 counterexample: a sources map in which one section carries only
`ast` and the other only `legacyAST` is not accepted; `compileJsonData`
rejects it instead of producing a source unit per section. -/
theorem c2_mixed_schema_rejected :
    compileJsonData ⟨some mixedSources, none⟩ =
      .error
        (.malformed
          "Unable to process data structure: neither consistent AST or code values are present") := by
  decide

/-- Claim C2 as amended: the AST branch of `compileJsonData` is taken
exactly when some single field among `ast`, `legacyAST` and `AST` is present
in every section of the sources map; when no single AST field is common to
all sections and `source` is not common to all sections either, the input is
rejected with the unable-to-process error rather than read per-section. -/
theorem c2_amended_consistency_required (sources : SourcesMap)
    (errs : Option (List SolcErrorEntry)) :
    (consistentlyContainsOneOf sources ["ast", "legacyAST", "AST"] = true ↔
      ∃ p ∈ (["ast", "legacyAST", "AST"] : List String),
        ∀ s ∈ sources, s.2.contains p = true)
    ∧ (consistentlyContainsOneOf sources ["ast", "legacyAST", "AST"] = false →
        consistentlyContainsOneOf sources ["source"] = false →
        compileJsonData ⟨some sources, errs⟩ =
          .error
            (.malformed
              "Unable to process data structure: neither consistent AST or code values are present")) := by
  constructor
  · rw [consistentlyContainsOneOf, List.any_eq_true]
    constructor
    · rintro ⟨p, hp, hall⟩
      refine ⟨p, hp, fun s hs => ?_⟩
      rw [List.all_eq_true] at hall
      exact hall s.2 (List.mem_map_of_mem _ hs)
    · rintro ⟨p, hp, hall⟩
      refine ⟨p, hp, ?_⟩
      rw [List.all_eq_true]
      intro sec hsec
      obtain ⟨s, hs, rfl⟩ := List.mem_map.mp hsec
      exact hall s hs
  · intro h1 h2
    rw [compileJsonData, if_neg (by rw [h1]; exact Bool.false_ne_true),
      if_neg (by rw [h2]; exact Bool.false_ne_true)]

/-- Claim C2 amended witness: on the concrete mixed-schema sources map the
rejection fires. -/
theorem c2_amended_witness :
    compileJsonData ⟨some mixedSources, some []⟩ =
      .error
        (.malformed
          "Unable to process data structure: neither consistent AST or code values are present") :=
  (c2_amended_consistency_required mixedSources (some [])).2 (by decide) (by decide)

theorem detectStep_eq (acc : List String) (e : SolcErrorEntry) :
    detectStep acc e = acc ++ (specSelectedError e).toList := by
  cases e with
  | obj sev msg =>
    by_cases h : sev = "error" <;> simp [detectStep, specSelectedError, h]
  | strEntry s =>
    by_cases h : matchesWarning s <;> simp [detectStep, specSelectedError, h]
  | otherEntry => simp [detectStep, specSelectedError]

theorem foldl_detectStep (errs : List SolcErrorEntry) :
    ∀ acc, errs.foldl detectStep acc = acc ++ errs.filterMap specSelectedError := by
  induction errs with
  | nil => intro acc; simp
  | cons e es ih =>
    intro acc
    rw [List.foldl_cons, ih, detectStep_eq, List.filterMap_cons]
    cases h : specSelectedError e <;> simp [List.append_assoc]

/-- Claim C6: `detectCompileErrors` returns exactly (the rendering of) the
entries of the top-level errors array that are objects with severity
`error` or strings that do not match `Warning`; and when any are detected
on AST-carrying input, `compileJsonData` fails with `CompileFailedError`
carrying the detected list and no tree is delivered. -/
theorem c6_detectCompileErrors_exact (data : JsonData) :
    detectCompileErrors data = (data.errors.getD []).filterMap specSelectedError
    ∧ (∀ sources, data.sources = some sources →
        consistentlyContainsOneOf sources ["ast", "legacyAST", "AST"] = true →
        detectCompileErrors data ≠ [] →
        compileJsonData data = .error (.compileFailed (detectCompileErrors data))) := by
  constructor
  · rcases data with ⟨ds, de⟩
    cases de with
    | none => rw [detectCompileErrors]; rfl
    | some errs =>
      rw [detectCompileErrors, foldl_detectStep errs []]
      rfl
  · intro sources hsrc hconsistent hne
    rcases data with ⟨ds, de⟩
    have hsrc2 : ds = some sources := hsrc
    subst hsrc2
    rw [compileJsonData, if_pos (by rw [hconsistent])]
    cases hd : detectCompileErrors ⟨some sources, de⟩ with
    | nil => exact absurd hd hne
    | cons e es => rfl

/-- Claim C6 witness: the detector applied to a concrete errors array mixing
both schemas and severities, with the induced `compileJsonData` failure. -/
theorem c6_witness :
    detectCompileErrors errorData = (errorData.errors.getD []).filterMap specSelectedError
    ∧ compileJsonData errorData = .error (.compileFailed (detectCompileErrors errorData)) :=
  ⟨(c6_detectCompileErrors_exact errorData).1,
   (c6_detectCompileErrors_exact errorData).2 _ rfl (by decide) (by decide)⟩

/-- Claim C8: the `ContractDefinition.vScope` setter validates before
mutating.  When the assigned node is not contained in the context the
assignment throws (and no new contract state is produced, so the numeric
`scope` field is unchanged); when it is contained, the assignment succeeds
and afterwards `scope` equals the id of the assigned node, with every other
attribute of the contract untouched. -/
theorem c8_vscope_setter_validates (ctx : ASTContext) (c value : Node)
    (hc : c.isContract = true) :
    (ctx.contains value = false →
      setVScope ctx c value = .error (.fatal "node not belongs to a current context"))
    ∧ (ctx.contains value = true →
      ∃ c2, setVScope ctx c value = .ok c2 ∧ c2.scopeOf = some value.id
        ∧ c2.id = c.id ∧ c2.parent = c.parent ∧ c2.children = c.children) := by
  rcases c with ⟨i, p, pl, ks⟩
  cases pl with
  | contractDefinition nm sc lin used d =>
    constructor
    · intro h
      rw [setVScope, if_pos]
      rw [h]
      exact Bool.false_ne_true
    · intro h
      refine ⟨.mk i p (.contractDefinition nm value.id lin used d) ks, ?_, rfl, rfl, rfl, rfl⟩
      rw [setVScope, if_neg]
      intro hcontra
      exact hcontra h
  | sourceUnit syms => exact absurd hc (by rw [Node.isContract]; exact Bool.false_ne_true)
  | pragmaDirective lits => exact absurd hc (by rw [Node.isContract]; exact Bool.false_ne_true)
  | structuredDocumentation t =>
    exact absurd hc (by rw [Node.isContract]; exact Bool.false_ne_true)
  | enumDefinition nm => exact absurd hc (by rw [Node.isContract]; exact Bool.false_ne_true)
  | enumValue nm => exact absurd hc (by rw [Node.isContract]; exact Bool.false_ne_true)

/-- Claim C8 witness: assigning a node outside the context throws. -/
theorem c8_witness :
    setVScope saneCtx saneContract sdOne =
      .error (.fatal "node not belongs to a current context") :=
  (c8_vscope_setter_validates saneCtx saneContract sdOne (by decide)).1 (by decide)

/-- Claim C10: `isSubclassOf(other)` holds exactly when the other contract
occurs in the element-wise context lookup of `linearizedBaseContracts`; in
particular a contract whose linearisation carries its own id (as the
compiler produces it) and which is registered in its context is a subclass
of itself. -/
theorem c10_isSubclassOf_linearized (ctx : ASTContext) (c other : Node) :
    (isSubclassOf ctx c other = true ↔ some other ∈ c.linearizedOf.map (locate ctx))
    ∧ (c.id ∈ c.linearizedOf → locate ctx c.id = some c → isSubclassOf ctx c c = true) := by
  constructor
  · rw [isSubclassOf, vLinearizedBaseContracts]
    exact List.elem_iff
  · intro h1 h2
    rw [isSubclassOf, vLinearizedBaseContracts, List.elem_iff]
    exact List.mem_map.mpr ⟨c.id, h1, h2⟩

/-- Claim C10 witness: the concrete contract whose linearisation starts with
its own id is a subclass of itself. -/
theorem c10_witness : isSubclassOf saneCtx saneContract saneContract = true :=
  (c10_isSubclassOf_linearized saneCtx saneContract saneContract).2 (by decide) (by decide)

theorem Node.id_applyRemap (f : Nat → Nat) (n : Node) : (applyRemap f n).id = f n.id := by
  rcases n with ⟨i, p, pl, ks⟩
  rw [applyRemap, Node.id, Node.id]

mutual

theorem getChildren_applyRemap : ∀ (f : Nat → Nat) (n : Node),
    (applyRemap f n).getChildren = n.getChildren.map (applyRemap f)
  | f, .mk i p pl ks => by
    simp only [applyRemap, Node.getChildren, List.map_cons]
    rw [getChildrenList_applyRemapList f ks]

theorem getChildrenList_applyRemapList : ∀ (f : Nat → Nat) (ks : List Node),
    getChildrenList (applyRemapList f ks) = (getChildrenList ks).map (applyRemap f)
  | _, [] => rfl
  | f, k :: ks => by
    rw [applyRemapList, getChildrenList, getChildrenList, List.map_append,
      getChildren_applyRemap f k, getChildrenList_applyRemapList f ks]

end

theorem preorderIds_applyRemap (f : Nat → Nat) (r : Node) :
    preorderIds (applyRemap f r) = (preorderIds r).map f := by
  rw [preorderIds, preorderIds, getChildren_applyRemap, List.map_map, List.map_map]
  congr 1
  funext n
  simp [Function.comp, Node.id_applyRemap]

theorem payloadRender_remapPayload (f : Nat → Nat) (pl : NodePayload) :
    payloadRender (remapPayload f pl) = payloadRender pl := by
  cases pl with
  | sourceUnit syms =>
    simp only [remapPayload, payloadRender, List.map_map]
    have hcomp : ((fun x : String × Nat => x.1) ∘ fun e : String × Nat => (e.1, f e.2)) =
        fun x : String × Nat => x.1 := by
      funext e
      rfl
    rw [hcomp]
  | pragmaDirective lits => rfl
  | structuredDocumentation t => rfl
  | contractDefinition nm sc lin used d => rfl
  | enumDefinition nm => rfl
  | enumValue nm => rfl

mutual

theorem print_applyRemap : ∀ (f : Nat → Nat) (n : Node), (applyRemap f n).print = n.print
  | f, .mk i p pl ks => by
    simp only [applyRemap, Node.print]
    rw [payloadRender_remapPayload, printForest_applyRemapList f ks]

theorem printForest_applyRemapList : ∀ (f : Nat → Nat) (ks : List Node),
    printForest (applyRemapList f ks) = printForest ks
  | _, [] => by rw [applyRemapList]
  | f, k :: ks => by
    rw [applyRemapList, printForest, printForest, print_applyRemap f k,
      printForest_applyRemapList f ks]

end

theorem remapPayload_comp (f g : Nat → Nat) (pl : NodePayload) :
    remapPayload g (remapPayload f pl) = remapPayload (fun o => g (f o)) pl := by
  cases pl <;> simp [remapPayload, List.map_map, Function.comp]

mutual

theorem applyRemap_comp : ∀ (f g : Nat → Nat) (n : Node),
    applyRemap g (applyRemap f n) = applyRemap (fun o => g (f o)) n
  | f, g, .mk i p pl ks => by
    simp only [applyRemap]
    rw [remapPayload_comp, applyRemapList_comp f g ks, Option.map_map]
    rfl

theorem applyRemapList_comp : ∀ (f g : Nat → Nat) (ks : List Node),
    applyRemapList g (applyRemapList f ks) = applyRemapList (fun o => g (f o)) ks
  | _, _, [] => rfl
  | f, g, k :: ks => by
    rw [applyRemapList, applyRemapList, applyRemapList, applyRemap_comp f g k,
      applyRemapList_comp f g ks]

end

theorem shapeOf_applyRemap (f : Nat → Nat) (n : Node) :
    (applyRemap f n).shapeOf = n.shapeOf := by
  rw [Node.shapeOf, Node.shapeOf, applyRemap_comp]

theorem remapId_get : ∀ (base : Nat) (olds : List Nat), olds.Nodup →
    ∀ (i : Nat) (h : i < olds.length), remapId base olds (olds.get ⟨i, h⟩) = base + i
  | _, [], _, i, h => absurd h (by simp)
  | base, a :: as, _, 0, _ => by
    rw [List.get, remapId, if_pos rfl]
    omega
  | base, a :: as, hnd, i + 1, h => by
    have hlt : i < as.length := by simpa using h
    have hmem : as.get ⟨i, hlt⟩ ∈ as := as.get_mem i hlt
    have hne : as.get ⟨i, hlt⟩ ≠ a :=
      fun he => (List.nodup_cons.mp hnd).1 (he ▸ hmem)
    have hstep : (a :: as).get ⟨i + 1, h⟩ = as.get ⟨i, hlt⟩ := rfl
    rw [hstep, remapId, if_neg hne,
      remapId_get (base + 1) as (List.nodup_cons.mp hnd).2 i hlt]
    omega

theorem preorderIds_cons (r : Node) :
    ∃ tail, preorderIds r = r.id :: tail := by
  rcases r with ⟨i, p, pl, ks⟩
  exact ⟨(getChildrenList ks).map Node.id, rfl⟩

/-- Claim C5: for a subtree whose ids are all below the factory id counter
(every id the factory context has handed out is) and pairwise distinct,
`copy` returns a node distinct from the original, with equal printed
render, identical structural shape, the same number of nodes, and a fresh
id strictly greater than the id of the corresponding original node at every
pre-order position. -/
theorem c5_copy_properties (fact : ASTNodeFactory) (r : Node)
    (hfresh : ∀ o ∈ preorderIds r, o < fact.nextId)
    (hnd : (preorderIds r).Nodup) :
    ((fact.copy r).1 ≠ r)
    ∧ ((fact.copy r).1.print = r.print)
    ∧ ((fact.copy r).1.shapeOf = r.shapeOf)
    ∧ ((preorderIds (fact.copy r).1).length = (preorderIds r).length)
    ∧ (∀ i, i < (preorderIds r).length →
        (preorderIds (fact.copy r).1).getD i 0 > (preorderIds r).getD i 0) := by
  have hcopy : (fact.copy r).1 = applyRemap (remapId fact.nextId (preorderIds r)) r := rfl
  have hpre : preorderIds (fact.copy r).1 =
      (preorderIds r).map (remapId fact.nextId (preorderIds r)) := by
    rw [hcopy, preorderIds_applyRemap]
  refine ⟨?_, ?_, ?_, ?_, ?_⟩
  · intro heq
    obtain ⟨tail, htail⟩ := preorderIds_cons r
    have hroot : (fact.copy r).1.id = fact.nextId := by
      rw [hcopy, Node.id_applyRemap, htail, remapId, if_pos rfl]
    have hlt : r.id < fact.nextId := hfresh r.id (by rw [htail]; exact List.mem_cons_self _ _)
    rw [heq] at hroot
    omega
  · rw [hcopy]
    exact print_applyRemap _ r
  · rw [hcopy]
    exact shapeOf_applyRemap _ r
  · rw [hpre, List.length_map]
  · intro i hi
    have hval : (preorderIds (fact.copy r).1).getD i 0 = fact.nextId + i := by
      rw [hpre,
        List.getD_eq_getElem (List.map (remapId fact.nextId (preorderIds r)) (preorderIds r)) 0
          (by rw [List.length_map]; exact hi),
        List.getElem_map]
      exact remapId_get fact.nextId (preorderIds r) hnd i hi
    have hval2 : (preorderIds r).getD i 0 = (preorderIds r).get ⟨i, hi⟩ :=
      List.getD_eq_getElem _ 0 hi
    have hmem := hfresh ((preorderIds r).get ⟨i, hi⟩) ((preorderIds r).get_mem i hi)
    rw [hval, hval2]
    omega

/-- Claim C5 witness: copying the concrete sane unit with a factory counter
past its ids yields a distinct node with an equal printed render. -/
theorem c5_witness :
    ((ASTNodeFactory.mk 100).copy saneUnit).1 ≠ saneUnit
    ∧ ((ASTNodeFactory.mk 100).copy saneUnit).1.print = saneUnit.print :=
  ⟨(c5_copy_properties ⟨100⟩ saneUnit (by decide) (by decide)).1,
   (c5_copy_properties ⟨100⟩ saneUnit (by decide) (by decide)).2.1⟩

theorem isStructuredDoc_withParent (d : Node) (q : Option Nat) :
    (d.withParent q).isStructuredDoc = d.isStructuredDoc := by
  rcases d with ⟨i, p, pl, ks⟩
  rfl

theorem removeChild_append (x : Node) (post pre : List Node) (hx : x ∉ pre) :
    removeChild x (pre ++ x :: post) = pre ++ post := by
  induction pre with
  | nil => rw [List.nil_append, removeChild, if_pos rfl, List.nil_append]
  | cons k pre ih =>
    have hne : ¬ k = x := by
      intro he
      subst he
      exact hx (List.mem_cons_self k pre)
    rw [List.cons_append, removeChild, if_neg hne,
      ih (fun hm => hx (List.mem_cons_of_mem k hm)), List.cons_append]

theorem replaceChild_append (nw x : Node) (post pre : List Node) (hx : x ∉ pre) :
    replaceChild nw x (pre ++ x :: post) = pre ++ nw :: post := by
  induction pre with
  | nil => rw [List.nil_append, replaceChild, if_pos rfl, List.nil_append]
  | cons k pre ih =>
    have hne : ¬ k = x := by
      intro he
      subst he
      exact hx (List.mem_cons_self k pre)
    rw [List.cons_append, replaceChild, if_neg hne,
      ih (fun hm => hx (List.mem_cons_of_mem k hm)), List.cons_append]

theorem find?_append_all_false {p : Node → Bool} (l pre : List Node)
    (hpre : ∀ a ∈ pre, p a = false) :
    (pre ++ l).find? p = l.find? p := by
  induction pre with
  | nil => rw [List.nil_append]
  | cons k pre ih =>
    rw [List.cons_append, List.find?_cons, hpre k (List.mem_cons_self k pre)]
    exact ih (fun a ha => hpre a (List.mem_cons_of_mem k ha))

/-- Split the children of a documentation-coherent contract around its
unique structured-documentation child. -/
theorem structured_child_split {ks : List Node} {oldD : Node}
    (hfind : ks.find? Node.isStructuredDoc = some oldD)
    (hlen : (ks.filter Node.isStructuredDoc).length ≤ 1) :
    Node.isStructuredDoc oldD = true
    ∧ ∃ pre post, ks = pre ++ oldD :: post
        ∧ (∀ a ∈ pre, Node.isStructuredDoc a = false)
        ∧ post.filter Node.isStructuredDoc = [] := by
  obtain ⟨hp, pre, post, hks, hpre⟩ := List.find?_eq_some.mp hfind
  have hpre2 : ∀ a ∈ pre, Node.isStructuredDoc a = false := by
    intro a ha
    have := hpre a ha
    simpa using this
  refine ⟨hp, pre, post, hks, hpre2, ?_⟩
  have hfil : ks.filter Node.isStructuredDoc =
      oldD :: post.filter Node.isStructuredDoc := by
    rw [hks, List.filter_append, List.filter_eq_nil_iff.mpr (by
      intro a ha
      rw [hpre2 a ha]
      exact Bool.false_ne_true), List.nil_append, List.filter_cons_of_pos hp]
  rw [hfil] at hlen
  simp only [List.length_cons] at hlen
  have : (post.filter Node.isStructuredDoc).length = 0 := by omega
  exact List.length_eq_zero.mp this

theorem not_mem_of_all_false {p : Node → Bool} {pre : List Node} {x : Node}
    (hpre : ∀ a ∈ pre, p a = false) (hx : p x = true) : x ∉ pre := by
  intro hm
  rw [hpre x hm] at hx
  exact Bool.false_ne_true hx

theorem documentation_some_eq (i : Nat) (p : Option Nat) (nm : String) (sc : Nat)
    (lin used : List Nat) (s : String) (ks : List Node) :
    Node.documentation (.mk i p (.contractDefinition nm sc lin used (some s)) ks) =
      .text s := rfl

theorem documentation_none_eq (i : Nat) (p : Option Nat) (nm : String) (sc : Nat)
    (lin used : List Nat) (ks : List Node) :
    Node.documentation (.mk i p (.contractDefinition nm sc lin used none) ks) =
      (match ks.find? Node.isStructuredDoc with
       | some d => DocVal.structured d
       | none => DocVal.noneDoc) := rfl

/-- Claim C9 counterexample: on a contract state carrying two
`StructuredDocumentation` children, assigning `undefined` to `documentation`
removes only the first one; reading `documentation` afterwards returns the
surviving node rather than the assigned `undefined`, and the second node is
still a child. -/
theorem c9_counterexample_two_docs :
    Node.documentation (setDocumentation twoDocContract .undefDoc) = .structured sdTwo
    ∧ sdTwo ∈ (setDocumentation twoDocContract .undefDoc).children := by
  constructor
  · decide
  · decide

/-- Claim C9 as amended: for every documentation-coherent contract (at most
one `StructuredDocumentation` child, and none while a textual `docString`
is stored — the invariant the setter itself maintains), assignment behaves
as claimed: a string or `undefined` value reads back exactly and leaves no
`StructuredDocumentation` child, and a `StructuredDocumentation` value reads
back (as rebound to its new parent) after replacing the previous structured
child when one existed and differed, being left in place when it is that
very child, and being inserted at the beginning of the children
otherwise. -/
theorem c9_amended_documentation_setter (c : Node) (hc : c.isContract = true)
    (hw : docCoherent c = true) :
    (∀ s, Node.documentation (setDocumentation c (.strDoc s)) = .text s
      ∧ structuredKids (setDocumentation c (.strDoc s)) = [])
    ∧ (Node.documentation (setDocumentation c .undefDoc) = .noneDoc
      ∧ structuredKids (setDocumentation c .undefDoc) = [])
    ∧ (∀ d, d.isStructuredDoc = true →
        Node.documentation (setDocumentation c (.structuredDoc d)) =
          (match Node.documentation c with
           | .structured oldD =>
             if d = oldD then .structured d else .structured (d.withParent (some c.id))
           | _ => .structured (d.withParent (some c.id)))
        ∧ (setDocumentation c (.structuredDoc d)).children =
          (match Node.documentation c with
           | .structured oldD =>
             if d = oldD then c.children
             else replaceChild (d.withParent (some c.id)) oldD c.children
           | _ => d.withParent (some c.id) :: c.children)) := by
  rcases c with ⟨i, p, pl, ks⟩
  cases pl with
  | contractDefinition nm sc lin used ds =>
    simp only [docCoherent, Node.payload, structuredKids, Node.children] at hw
    cases ds with
    | some s0 =>
      rw [Bool.and_eq_true] at hw
      have hfil : ks.filter Node.isStructuredDoc = [] := by
        have h2 := hw.2
        simpa [List.isEmpty_iff] using h2
      have hfind : ks.find? Node.isStructuredDoc = none := by
        rw [List.find?_eq_none]
        intro x hx
        have := List.filter_eq_nil_iff.mp hfil x hx
        simpa using this
      have hdoc : Node.documentation
          (.mk i p (.contractDefinition nm sc lin used (some s0)) ks) = .text s0 :=
        documentation_some_eq i p nm sc lin used s0 ks
      refine ⟨?_, ?_, ?_⟩
      · intro s
        have hset : setDocumentation
            (.mk i p (.contractDefinition nm sc lin used (some s0)) ks) (.strDoc s) =
            .mk i p (.contractDefinition nm sc lin used (some s)) ks := by
          simp only [setDocumentation]
          rw [hdoc]
        rw [hset]
        exact ⟨documentation_some_eq i p nm sc lin used s ks, hfil⟩
      · have hset : setDocumentation
            (.mk i p (.contractDefinition nm sc lin used (some s0)) ks) .undefDoc =
            .mk i p (.contractDefinition nm sc lin used none) ks := by
          simp only [setDocumentation]
          rw [hdoc]
        rw [hset]
        constructor
        · rw [documentation_none_eq, hfind]
        · exact hfil
      · intro d hd
        have hset : setDocumentation
            (.mk i p (.contractDefinition nm sc lin used (some s0)) ks) (.structuredDoc d) =
            .mk i p (.contractDefinition nm sc lin used none) (d.withParent (some i) :: ks) := by
          simp only [setDocumentation]
          rw [hdoc]
        have hfindcons : (d.withParent (some i) :: ks).find? Node.isStructuredDoc =
            some (d.withParent (some i)) := by
          rw [List.find?_cons, isStructuredDoc_withParent, hd]
        rw [hset]
        constructor
        · rw [documentation_none_eq, hfindcons]
          simp only [hdoc, Node.id]
        · simp only [hdoc, Node.id, Node.children]
    | none =>
      rw [Bool.and_eq_true] at hw
      have hlen : (ks.filter Node.isStructuredDoc).length ≤ 1 := of_decide_eq_true hw.1
      cases hfind : ks.find? Node.isStructuredDoc with
      | none =>
        have hfil : ks.filter Node.isStructuredDoc = [] := by
          rw [List.filter_eq_nil_iff]
          intro a ha
          have := List.find?_eq_none.mp hfind a ha
          simpa using this
        have hdoc : Node.documentation
            (.mk i p (.contractDefinition nm sc lin used none) ks) = .noneDoc := by
          rw [documentation_none_eq, hfind]
        refine ⟨?_, ?_, ?_⟩
        · intro s
          have hset : setDocumentation
              (.mk i p (.contractDefinition nm sc lin used none) ks) (.strDoc s) =
              .mk i p (.contractDefinition nm sc lin used (some s)) ks := by
            simp only [setDocumentation]
            rw [hdoc]
          rw [hset]
          exact ⟨documentation_some_eq i p nm sc lin used s ks, hfil⟩
        · have hset : setDocumentation
              (.mk i p (.contractDefinition nm sc lin used none) ks) .undefDoc =
              .mk i p (.contractDefinition nm sc lin used none) ks := by
            simp only [setDocumentation]
            rw [hdoc]
          rw [hset]
          exact ⟨hdoc, hfil⟩
        · intro d hd
          have hset : setDocumentation
              (.mk i p (.contractDefinition nm sc lin used none) ks) (.structuredDoc d) =
              .mk i p (.contractDefinition nm sc lin used none)
                (d.withParent (some i) :: ks) := by
            simp only [setDocumentation]
            rw [hdoc]
          have hfindcons : (d.withParent (some i) :: ks).find? Node.isStructuredDoc =
              some (d.withParent (some i)) := by
            rw [List.find?_cons, isStructuredDoc_withParent, hd]
          rw [hset]
          constructor
          · rw [documentation_none_eq, hfindcons]
            simp only [hdoc, Node.id]
          · simp only [hdoc, Node.id, Node.children]
      | some oldD =>
        obtain ⟨hpOld, pre, post, hks, hpre, hpost⟩ := structured_child_split hfind hlen
        have hnotmem : oldD ∉ pre := not_mem_of_all_false hpre hpOld
        have hprefil : pre.filter Node.isStructuredDoc = [] := by
          rw [List.filter_eq_nil_iff]
          intro a ha
          rw [hpre a ha]
          exact Bool.false_ne_true
        have hdoc : Node.documentation
            (.mk i p (.contractDefinition nm sc lin used none) ks) = .structured oldD := by
          rw [documentation_none_eq, hfind]
        have hremove : removeChild oldD ks = pre ++ post := by
          rw [hks]
          exact removeChild_append oldD post pre hnotmem
        have hremfil : (pre ++ post).filter Node.isStructuredDoc = [] := by
          rw [List.filter_append, hprefil, hpost, List.nil_append]
        refine ⟨?_, ?_, ?_⟩
        · intro s
          have hset : setDocumentation
              (.mk i p (.contractDefinition nm sc lin used none) ks) (.strDoc s) =
              .mk i p (.contractDefinition nm sc lin used (some s)) (removeChild oldD ks) := by
            simp only [setDocumentation]
            rw [hdoc]
          rw [hset]
          refine ⟨documentation_some_eq i p nm sc lin used s _, ?_⟩
          rw [hremove]
          exact hremfil
        · have hset : setDocumentation
              (.mk i p (.contractDefinition nm sc lin used none) ks) .undefDoc =
              .mk i p (.contractDefinition nm sc lin used none) (removeChild oldD ks) := by
            simp only [setDocumentation]
            rw [hdoc]
          rw [hset, hremove]
          constructor
          · rw [documentation_none_eq]
            have hfindnil : (pre ++ post).find? Node.isStructuredDoc = none := by
              rw [find?_append_all_false post pre hpre, List.find?_eq_none]
              intro a ha
              have := List.filter_eq_nil_iff.mp hpost a ha
              simpa using this
            rw [hfindnil]
          · exact hremfil
        · intro d hd
          by_cases hdeq : d = oldD
          · have hset : setDocumentation
                (.mk i p (.contractDefinition nm sc lin used none) ks) (.structuredDoc d) =
                .mk i p (.contractDefinition nm sc lin used none) ks := by
              simp only [setDocumentation, hdoc]
              rw [if_neg (fun hcon => hcon hdeq)]
            rw [hset]
            constructor
            · simp only [hdoc, Node.id]
              rw [if_pos hdeq, hdeq]
            · simp only [hdoc, Node.id, Node.children]
              rw [if_pos hdeq]
          · have hset : setDocumentation
                (.mk i p (.contractDefinition nm sc lin used none) ks) (.structuredDoc d) =
                .mk i p (.contractDefinition nm sc lin used none)
                  (replaceChild (d.withParent (some i)) oldD ks) := by
              simp only [setDocumentation, hdoc]
              rw [if_pos hdeq]
            have hreplace : replaceChild (d.withParent (some i)) oldD ks =
                pre ++ d.withParent (some i) :: post := by
              rw [hks]
              exact replaceChild_append (d.withParent (some i)) oldD post pre hnotmem
            rw [hset]
            constructor
            · simp only [hdoc, Node.id]
              rw [if_neg hdeq, documentation_none_eq, hreplace,
                find?_append_all_false _ pre hpre, List.find?_cons,
                isStructuredDoc_withParent, hd]
            · simp only [hdoc, Node.id, Node.children]
              rw [if_neg hdeq]
  | sourceUnit syms => exact absurd hc (by rw [Node.isContract]; exact Bool.false_ne_true)
  | pragmaDirective lits => exact absurd hc (by rw [Node.isContract]; exact Bool.false_ne_true)
  | structuredDocumentation t =>
    exact absurd hc (by rw [Node.isContract]; exact Bool.false_ne_true)
  | enumDefinition nm => exact absurd hc (by rw [Node.isContract]; exact Bool.false_ne_true)
  | enumValue nm => exact absurd hc (by rw [Node.isContract]; exact Bool.false_ne_true)

/-- Claim C9 witness: on the concrete coherent contract with a textual
documentation, a string assignment reads back and an `undefined` assignment
reads back. -/
theorem c9_witness :
    Node.documentation (setDocumentation legacyContract (.strDoc "w")) = .text "w"
    ∧ Node.documentation (setDocumentation legacyContract .undefDoc) = .noneDoc :=
  ⟨((c9_amended_documentation_setter legacyContract (by decide) (by decide)).1 "w").1,
   (c9_amended_documentation_setter legacyContract (by decide) (by decide)).2.1.1⟩

end SolcTypedAst
